import Mathlib

/-!
Verification of the pagination engine and navigation state machine of a
terminal PDF text viewer (`src/main.rs`).

Strings are modelled as `List Char`.  The external word-wrapping
collaborator (`textwrap::fill`) is modelled from the spec: greedy word
wrap, breaking between words, hard-breaking a word that alone exceeds the
wrap width.  Everything else is translated directly from the Rust source.
-/

namespace PdfTui

abbrev Str := List Char

/-- The explicit page-break marker (form feed, U+000C). -/
def formFeed : Char := Char.ofNat 12

/-- Rust `char::is_whitespace`, restricted to the ASCII whitespace range
(the only characters relevant to this development). -/
def wsChar (c : Char) : Bool :=
  c = ' ' || c = '\t' || c = '\n' || c = '\x0d' || c = formFeed || c = Char.ofNat 11

/-- Rust `str::trim`: drop leading and trailing whitespace. -/
def trim (s : Str) : Str :=
  ((s.dropWhile wsChar).reverse.dropWhile wsChar).reverse

/-- Split a character list at every character satisfying `p` (the
separator characters are dropped; `n` separators yield `n+1` parts, so
the result is never empty).  This is Rust `str::split`. -/
def splitOnP (p : Char → Bool) : Str → List Str
  | [] => [[]]
  | c :: cs =>
    if p c then [] :: splitOnP p cs
    else
      match splitOnP p cs with
      | [] => [[c]]
      | w :: rest => (c :: w) :: rest

/-- Rust `str::split(sep)` for a single separator character. -/
def splitOnChar (sep : Char) (s : Str) : List Str :=
  splitOnP (fun c => c = sep) s

/-- Rust `str::lines`: split at `'\n'`, a final trailing line break not
producing a trailing empty line (`"".lines()` is empty). -/
def linesOf (s : Str) : List Str :=
  if (splitOnChar '\n' s).getLast? = some [] then (splitOnChar '\n' s).dropLast
  else splitOnChar '\n' s

/-- The words of a line: maximal whitespace-free runs. -/
def splitWords (s : Str) : List Str :=
  (splitOnP wsChar s).filter (fun w => !w.isEmpty)

/-- Hard-break a single word into chunks of at most `max width 1`
characters (the floor of 1 keeps the function total at width 0). -/
def chunkWord (width : Nat) (s : Str) : List Str :=
  match s with
  | [] => []
  | c :: cs =>
    (c :: cs).take (max width 1) :: chunkWord width ((c :: cs).drop (max width 1))
termination_by s.length
decreasing_by
  simp only [List.length_drop, List.length_cons]
  omega

/-- Modelled from the spec: greedy word wrap of a word list.  `acc` is
the line being assembled; words are separated by single spaces; a word
longer than `width` flushes the line and is hard-broken. -/
def wrapWords (width : Nat) : Str → List Str → List Str
  | acc, [] => [acc]
  | acc, w :: ws =>
    if width < w.length then
      (if acc.isEmpty then [] else [acc]) ++ (chunkWord width w).dropLast
        ++ wrapWords width ((chunkWord width w).getLastD []) ws
    else if acc.isEmpty then wrapWords width w ws
    else if acc.length + 1 + w.length ≤ width then
      wrapWords width (acc ++ ' ' :: w) ws
    else acc :: wrapWords width w ws

/-- Modelled from the spec: wrap one input line to `width` columns.  A
line with no words stays as a single (empty) output line. -/
def wrapLine (width : Nat) (line : Str) : List Str :=
  if (splitWords line).isEmpty then [[]]
  else wrapWords width [] (splitWords line)

/-- Modelled from the spec: the wrapped display lines of a whole text —
`textwrap::fill` wraps each existing line separately. -/
def fillLines (text : Str) (width : Nat) : List Str :=
  ((splitOnChar '\n' text).map (wrapLine width)).flatten

/-- Join parts with a single separator character between consecutive
parts (`List.intercalate [sep]`, in a directly recursive form). -/
def joinSep (sep : Char) : List Str → Str
  | [] => []
  | [x] => x
  | x :: y :: rest => x ++ sep :: joinSep sep (y :: rest)

/-- Modelled from the spec: `textwrap::fill(text, width)` — the wrapped
lines rejoined with `'\n'`. -/
def fill (text : Str) (width : Nat) : Str :=
  joinSep '\n' (fillLines text width)

/-- The page buffer contents produced by appending each line followed by
`'\n'` (the shape `current_page` takes in `split_into_pages`). -/
def unlinesT (ls : List Str) : Str :=
  (ls.map (fun l => l ++ ['\n'])).flatten

/-- The fixed placeholder page returned for a document with no
extractable text (string copied verbatim from the source). -/
def placeholderText : Str :=
  ("El PDF parece estar vacío o el texto no se pudo extraer.\n\nEsto puede suceder con:\n• PDFs que son principalmente imágenes\n• PDFs con texto incrustado\n• PDFs con codificación especial\n\nIntenta con un PDF que contenga texto seleccionable.").data

/-- The mutable loop state of `split_into_pages`: completed pages, the
page buffer being filled, and its line count. -/
structure SplitState where
  pages : List Str
  current : Str
  linesInPage : Nat
deriving DecidableEq

/-- The body of the inner `for line in lines` loop of
`split_into_pages`: flush the buffer as a (trimmed) page once it holds
`contentHeight` lines, then append the line followed by `'\n'`. -/
def addLine (contentHeight : Nat) (st : SplitState) (line : Str) : SplitState :=
  if contentHeight ≤ st.linesInPage then
    ⟨st.pages ++ [trim st.current], line ++ ['\n'], 1⟩
  else
    ⟨st.pages, st.current ++ line ++ ['\n'], st.linesInPage + 1⟩

/-- The end-of-section step: when the document has more than one section
and the buffer is not blank, force-close it as a page. -/
def endSection (multi : Bool) (st : SplitState) : SplitState :=
  if multi && !(trim st.current).isEmpty then
    ⟨st.pages ++ [trim st.current], [], 0⟩
  else st

/-- The final flush after all sections: a non-blank buffer becomes the
last page. -/
def finalFlush (st : SplitState) : List Str :=
  if (trim st.current).isEmpty then st.pages else st.pages ++ [trim st.current]

/-- The defensive fallback of `split_into_pages`: re-chunk the full
unsplit text, ignoring section boundaries. -/
def fallbackPages (text : Str) (contentWidth contentHeight : Nat) : List Str :=
  finalFlush ((linesOf (fill text contentWidth)).foldl (addLine contentHeight) ⟨[], [], 0⟩)

/-- The processing of one section in the `for section in &page_sections`
loop: wrap it, feed every wrapped line to the page chunker, then apply
the end-of-section flush. -/
def sectionStep (contentWidth contentHeight : Nat) (multi : Bool)
    (st : SplitState) (sec : Str) : SplitState :=
  endSection multi ((linesOf (fill sec contentWidth)).foldl (addLine contentHeight) st)

/-- The page list produced by the main section loop of
`split_into_pages` (before the defensive empty-result fallback). -/
def mainPages (text : Str) (contentWidth contentHeight : Nat) : List Str :=
  finalFlush ((splitOnChar formFeed text).foldl
    (sectionStep contentWidth contentHeight (decide (1 < (splitOnChar formFeed text).length)))
    ⟨[], [], 0⟩)

/-- `PdfViewer::split_into_pages` translated from the source.  `width`
and `height` are the terminal dimensions (`u16` values, modelled as
`Nat`; `saturating_sub` is `Nat` subtraction). -/
def split_into_pages (text : Str) (width height : Nat) : List Str :=
  if (trim text).isEmpty then [placeholderText]
  else if (mainPages text (width - 6) (height - 8)).isEmpty then
    fallbackPages text (width - 6) (height - 8)
  else mainPages text (width - 6) (height - 8)

/-- The `PdfViewer` struct from the source (terminal dimensions as
`Nat`). -/
structure PdfViewer where
  full_text : Str
  pages : List Str
  current_page : Nat
  total_pages : Nat
  terminal_width : Nat
  terminal_height : Nat
  pdf_name : Str
deriving DecidableEq

/-- `PdfViewer::new`, minus the I/O: paginate once and start at page 0;
`total_pages` is forced to 1 when the page list is empty. -/
def mkViewer (full_text pdf_name : Str) (width height : Nat) : PdfViewer :=
  { full_text := full_text
    pages := split_into_pages full_text width height
    current_page := 0
    total_pages := if (split_into_pages full_text width height).length = 0 then 1
      else (split_into_pages full_text width height).length
    terminal_width := width
    terminal_height := height
    pdf_name := pdf_name }

/-- `PdfViewer::next_page`. -/
def next_page (v : PdfViewer) : PdfViewer :=
  if v.current_page + 1 < v.total_pages then
    { v with current_page := v.current_page + 1 }
  else v

/-- `PdfViewer::prev_page`. -/
def prev_page (v : PdfViewer) : PdfViewer :=
  if 0 < v.current_page then { v with current_page := v.current_page - 1 } else v

/-- The key events the `run` loop reacts to (grouped as in its `match`:
e.g. `left` covers both the left arrow and `h`). -/
inductive NavKey where
  | left
  | right
  | home
  | endKey
  | quit
  | refresh
  | help
  | other
deriving DecidableEq

/-- The state update a single key performs in the `run` loop (redrawing
aside).  `help`, `refresh` and unrecognised keys leave every field
unchanged. -/
def applyKey (v : PdfViewer) (k : NavKey) : PdfViewer :=
  match k with
  | .left => prev_page v
  | .right => next_page v
  | .home => { v with current_page := 0 }
  | .endKey => { v with current_page := v.total_pages - 1 }
  | .quit => v
  | .refresh => v
  | .help => v
  | .other => v

/-- The `run` loop over a finite key sequence: `quit` stops the loop;
`help` blocks until one further key of any kind, which is consumed
without its normal action; every other key applies its transition. -/
def processKeys (v : PdfViewer) : List NavKey → PdfViewer
  | [] => v
  | NavKey.quit :: _ => v
  | NavKey.help :: rest =>
    match rest with
    | [] => v
    | _ :: rest2 => processKeys v rest2
  | k :: rest => processKeys (applyKey v k) rest

/-- Rust `format!("{:<width$}", line)`: pad on the right with spaces to
at least `width` columns (longer lines are not truncated). -/
def padRight (width : Nat) (s : Str) : Str :=
  s ++ List.replicate (width - s.length) ' '

/-- One rendered content row of the box: `│ <padded line> │`. -/
def contentRow (contentWidth : Nat) (l : Str) : Str :=
  '│' :: ' ' :: (padRight contentWidth l ++ [' ', '│'])

/-- A blank (padding-only) content row. -/
def blankRow (contentWidth : Nat) : Str :=
  contentRow contentWidth []

/-- The first rendering loop of `draw_page`: print page lines until
`contentHeight` rows are displayed (`d` is `displayed_lines`). -/
def shownRows (contentWidth contentHeight : Nat) : List Str → Nat → List Str
  | [], _ => []
  | l :: ls, d =>
    if contentHeight ≤ d then []
    else contentRow contentWidth l :: shownRows contentWidth contentHeight ls (d + 1)

/-- The guarded page lookup of `draw_page`: the current page's content,
or the empty string when the index is out of range. -/
def pageContentOf (v : PdfViewer) : Str :=
  if h : v.current_page < v.pages.length then v.pages.get ⟨v.current_page, h⟩ else []

/-- The content rows `draw_page` emits between the top and bottom
borders: the shown page lines followed by blank padding rows up to
`contentHeight`. -/
def contentRows (v : PdfViewer) : List Str :=
  shownRows (v.terminal_width - 6) (v.terminal_height - 8) (linesOf (pageContentOf v)) 0
    ++ List.replicate ((v.terminal_height - 8) -
        (shownRows (v.terminal_width - 6) (v.terminal_height - 8)
          (linesOf (pageContentOf v)) 0).length)
      (blankRow (v.terminal_width - 6))

/-- The number of filled cells of the progress bar. -/
def progressFilled (current total : Nat) : Nat :=
  (current + 1) * 20 / total

/-- The progress bar cells: filled cells then unfilled cells, as built
by the two `repeat` calls in `draw_page`. -/
def progressBar (current total : Nat) : Str :=
  List.replicate (progressFilled current total) '█'
    ++ List.replicate (20 - progressFilled current total) '░'

/-- The progress percentage (the `f32` computation modelled exactly over
`ℚ`). -/
def percentQ (current total : Nat) : ℚ :=
  ((current : ℚ) + 1) / (total : ℚ) * 100

/-! ### Basic facts about the string-splitting helpers -/

theorem splitOnP_ne_nil (p : Char → Bool) (s : Str) : splitOnP p s ≠ [] := by
  cases s with
  | nil => simp [splitOnP]
  | cons c cs =>
    simp only [splitOnP]
    split
    · simp
    · split <;> simp

theorem splitOnP_cons_true {p : Char → Bool} {c : Char} (cs : Str) (hp : p c = true) :
    splitOnP p (c :: cs) = [] :: splitOnP p cs := by
  simp [splitOnP, hp]

theorem splitOnP_cons_false {p : Char → Bool} {c : Char} {cs : Str} {w : Str}
    {rest : List Str} (hp : p c = false) (h : splitOnP p cs = w :: rest) :
    splitOnP p (c :: cs) = (c :: w) :: rest := by
  simp only [splitOnP, hp, Bool.false_eq_true, if_false, h]

theorem exists_mem_splitOnP {p : Char → Bool} {c : Char} {s : Str}
    (hc : c ∈ s) (hp : p c = false) : ∃ part ∈ splitOnP p s, c ∈ part := by
  induction s with
  | nil => cases hc
  | cons d ds ih =>
    cases h : splitOnP p ds with
    | nil => exact absurd h (splitOnP_ne_nil p ds)
    | cons w rest =>
      rcases List.mem_cons.mp hc with rfl | hmem
      · rw [splitOnP_cons_false hp h]
        exact ⟨c :: w, by simp, by simp⟩
      · by_cases hd : p d = true
        · rw [splitOnP_cons_true ds hd]
          obtain ⟨part, hpart, hcp⟩ := ih hmem
          exact ⟨part, List.mem_cons_of_mem _ hpart, hcp⟩
        · rw [splitOnP_cons_false (Bool.not_eq_true _ ▸ hd) h]
          obtain ⟨part, hpart, hcp⟩ := ih hmem
          rw [h] at hpart
          rcases List.mem_cons.mp hpart with rfl | hrest
          · exact ⟨d :: part, by simp, List.mem_cons_of_mem _ hcp⟩
          · exact ⟨part, List.mem_cons_of_mem _ hrest, hcp⟩

theorem splitOnP_sep_free {p : Char → Bool} {s part : Str} {c : Char}
    (hpart : part ∈ splitOnP p s) (hc : c ∈ part) : p c = false := by
  induction s generalizing part with
  | nil =>
    simp only [splitOnP, List.mem_singleton] at hpart
    subst hpart
    cases hc
  | cons d ds ih =>
    cases h : splitOnP p ds with
    | nil => exact absurd h (splitOnP_ne_nil p ds)
    | cons w rest =>
      by_cases hd : p d = true
      · rw [splitOnP_cons_true ds hd] at hpart
        rcases List.mem_cons.mp hpart with rfl | hmem
        · cases hc
        · exact ih hmem hc
      · rw [splitOnP_cons_false (Bool.not_eq_true _ ▸ hd) h] at hpart
        rcases List.mem_cons.mp hpart with rfl | hmem
        · rcases List.mem_cons.mp hc with rfl | hcw
          · exact Bool.not_eq_true _ ▸ hd
          · exact ih (h ▸ List.mem_cons_self w rest) hcw
        · exact ih (h ▸ List.mem_cons_of_mem w hmem) hc

theorem joinSep_cons (sep : Char) (x : Str) {L : List Str} (h : L ≠ []) :
    joinSep sep (x :: L) = x ++ sep :: joinSep sep L := by
  cases L with
  | nil => exact absurd rfl h
  | cons y rest => rfl

theorem joinSep_splitOnChar (sep : Char) (s : Str) :
    joinSep sep (splitOnChar sep s) = s := by
  induction s with
  | nil => rfl
  | cons c cs ih =>
    unfold splitOnChar at *
    cases h : splitOnP (fun x => decide (x = sep)) cs with
    | nil => exact absurd h (splitOnP_ne_nil _ cs)
    | cons w rest =>
      by_cases hc : c = sep
      · subst hc
        rw [splitOnP_cons_true cs (by simp), joinSep_cons _ _ (splitOnP_ne_nil _ cs)]
        simpa using ih
      · rw [splitOnP_cons_false (by simp [hc]) h]
        rw [h] at ih
        cases rest with
        | nil => simpa [joinSep] using ih
        | cons z zs =>
          rw [joinSep_cons _ _ (by simp), List.cons_append]
          rw [joinSep_cons _ _ (by simp)] at ih
          simpa using ih

theorem mem_joinSep {sep : Char} {parts : List Str} {part : Str} {c : Char}
    (hpart : part ∈ parts) (hc : c ∈ part) : c ∈ joinSep sep parts := by
  induction parts with
  | nil => cases hpart
  | cons x rest ih =>
    cases rest with
    | nil =>
      simp only [List.mem_singleton] at hpart
      subst hpart
      exact hc
    | cons y ys =>
      rw [joinSep_cons _ _ (by simp)]
      rcases List.mem_cons.mp hpart with rfl | hmem
      · exact List.mem_append_left _ hc
      · exact List.mem_append_right _ (List.mem_cons_of_mem _ (ih hmem))

theorem splitOnChar_length (sep : Char) (s : Str) :
    (splitOnChar sep s).length = s.count sep + 1 := by
  induction s with
  | nil => rfl
  | cons c cs ih =>
    unfold splitOnChar at *
    cases h : splitOnP (fun x => decide (x = sep)) cs with
    | nil => exact absurd h (splitOnP_ne_nil _ cs)
    | cons w rest =>
      by_cases hc : c = sep
      · subst hc
        rw [splitOnP_cons_true cs (by simp)]
        simp [List.count_cons, ih]
      · rw [splitOnP_cons_false (by simp [hc]) h]
        rw [h] at ih
        simp only [List.length_cons] at ih ⊢
        simp [List.count_cons, hc, ih]

/-! ### Facts about `linesOf` -/

theorem exists_mem_linesOf {c : Char} {s : Str} (hc : c ∈ s) (hne : c ≠ '\n') :
    ∃ l ∈ linesOf s, c ∈ l := by
  obtain ⟨part, hpart, hcp⟩ :=
    exists_mem_splitOnP (p := fun x => decide (x = '\n')) hc (by simp [hne])
  unfold linesOf
  split
  · next hlast =>
    have hps := List.dropLast_append_getLast? (l := splitOnChar '\n' s) []
      (Option.mem_def.mpr hlast)
    refine ⟨part, ?_, hcp⟩
    have hmem2 : part ∈ (splitOnChar '\n' s).dropLast ++ [([] : Str)] := by
      rw [hps]
      exact hpart
    rcases List.mem_append.mp hmem2 with hm | hm
    · exact hm
    · simp only [List.mem_singleton] at hm
      subst hm
      cases hcp
  · exact ⟨part, hpart, hcp⟩

theorem linesOf_sep_free {s l : Str} (hl : l ∈ linesOf s) : '\n' ∉ l := by
  intro hc
  have hmem : l ∈ splitOnChar '\n' s := by
    unfold linesOf at hl
    split at hl
    · exact (List.dropLast_sublist _).mem hl
    · exact hl
  have := splitOnP_sep_free hmem hc
  simp at this

theorem linesOf_length_le (s : Str) : (linesOf s).length ≤ s.count '\n' + 1 := by
  unfold linesOf
  split
  · have h1 : (splitOnChar '\n' s).dropLast.length ≤ (splitOnChar '\n' s).length :=
      (List.dropLast_sublist _).length_le
    have h2 := splitOnChar_length '\n' s
    omega
  · exact (splitOnChar_length '\n' s).le

theorem linesOf_nil : linesOf [] = [] := rfl

/-! ### Facts about `trim` -/

theorem trim_sublist (s : Str) : List.Sublist (trim s) s := by
  have h1 : List.Sublist (s.dropWhile wsChar) s := List.dropWhile_sublist wsChar
  have h2 : List.Sublist ((s.dropWhile wsChar).reverse.dropWhile wsChar)
      (s.dropWhile wsChar).reverse := List.dropWhile_sublist wsChar
  have h4 := List.reverse_sublist.mpr h2
  rw [List.reverse_reverse] at h4
  exact h4.trans h1

theorem mem_dropWhile_of_neg {p : Char → Bool} {c : Char} {s : Str}
    (hc : c ∈ s) (hp : p c = false) : c ∈ s.dropWhile p := by
  induction s with
  | nil => cases hc
  | cons d ds ih =>
    by_cases hd : p d = true
    · rw [List.dropWhile_cons_of_pos hd]
      rcases List.mem_cons.mp hc with rfl | hmem
      · rw [hp] at hd; cases hd
      · exact ih hmem
    · rw [List.dropWhile_cons_of_neg hd]
      exact hc

theorem mem_trim {c : Char} {s : Str} (hc : c ∈ s) (hw : wsChar c = false) :
    c ∈ trim s := by
  unfold trim
  rw [List.mem_reverse]
  exact mem_dropWhile_of_neg (List.mem_reverse.mpr (mem_dropWhile_of_neg hc hw)) hw

theorem exists_nonws_of_trim_ne_nil {s : Str} (h : trim s ≠ []) :
    ∃ c ∈ s, wsChar c = false := by
  by_contra hall
  push_neg at hall
  have hws : ∀ c ∈ s, wsChar c = true := by
    intro c hcs
    cases hb : wsChar c with
    | false => exact absurd hb (hall c hcs)
    | true => rfl
  have : s.dropWhile wsChar = [] := List.dropWhile_eq_nil_iff.mpr hws
  unfold trim at h
  rw [this] at h
  simp at h

theorem trim_ne_nil_of_mem {c : Char} {s : Str} (hc : c ∈ s) (hw : wsChar c = false) :
    trim s ≠ [] := by
  intro hnil
  have hmem := mem_trim hc hw
  rw [hnil] at hmem
  cases hmem

theorem dropWhile_append_of_ne_nil {p : Char → Bool} {s : Str} {d : Char} {ds : Str}
    (h : s.dropWhile p = d :: ds) (t : Str) :
    (s ++ t).dropWhile p = (d :: ds) ++ t := by
  induction s with
  | nil => cases h
  | cons e es ihs =>
    by_cases he : p e = true
    · rw [List.dropWhile_cons_of_pos he] at h
      rw [List.cons_append, List.dropWhile_cons_of_pos he]
      exact ihs h
    · rw [List.dropWhile_cons_of_neg (by simp [he])] at h
      rw [List.cons_append, List.dropWhile_cons_of_neg (by simp [he]), ← h]
      simp

theorem trim_append_ws {c : Char} (hc : wsChar c = true) (s : Str) :
    trim (s ++ [c]) = trim s := by
  unfold trim
  cases h : s.dropWhile wsChar with
  | nil =>
    have hall : (s ++ [c]).dropWhile wsChar = [] := by
      rw [List.dropWhile_eq_nil_iff] at h ⊢
      intro a ha
      rcases List.mem_append.mp ha with hm | hm
      · exact h a hm
      · simp only [List.mem_singleton] at hm
        subst hm
        exact hc
    rw [hall]
  | cons d ds =>
    rw [dropWhile_append_of_ne_nil h [c]]
    rw [List.reverse_append, List.reverse_singleton]
    simp only [List.singleton_append, List.dropWhile_cons_of_pos hc]

theorem ne_newline_of_not_ws {c : Char} (hw : wsChar c = false) : c ≠ '\n' := by
  intro h
  subst h
  rw [(by decide : wsChar '\n' = true)] at hw
  cases hw

theorem ne_formFeed_of_not_ws {c : Char} (hw : wsChar c = false) : c ≠ formFeed := by
  intro h
  subst h
  rw [(by decide : wsChar formFeed = true)] at hw
  cases hw

/-! ### Coverage facts about the word-wrap model -/

theorem chunkWord_flatten (n : Nat) (s : Str) : (chunkWord n s).flatten = s := by
  induction s using chunkWord.induct n with
  | case1 => simp [chunkWord]
  | case2 c cs ih =>
    rw [chunkWord]
    simp only [List.flatten_cons, ih, List.take_append_drop]

theorem exists_mem_chunkWord {c : Char} {s : Str} (hc : c ∈ s) (n : Nat) :
    ∃ k ∈ chunkWord n s, c ∈ k := by
  have h := chunkWord_flatten n s
  rw [← h] at hc
  obtain ⟨l, hl, hcl⟩ := List.mem_flatten.mp hc
  exact ⟨l, hl, hcl⟩

theorem chunkWord_ne_nil {s : Str} (h : s ≠ []) (n : Nat) : chunkWord n s ≠ [] := by
  cases s with
  | nil => exact absurd rfl h
  | cons c cs =>
    rw [chunkWord]
    exact List.cons_ne_nil _ _

theorem dropLast_append_getLastD {L : List Str} (h : L ≠ []) :
    L.dropLast ++ [L.getLastD []] = L := by
  have h2 := List.getLast?_eq_getLast_of_ne_nil h
  have h3 : L.getLastD [] = L.getLast h := by
    rw [List.getLastD_eq_getLast?, h2]
    rfl
  rw [h3]
  exact List.dropLast_append_getLast h

theorem exists_mem_wrapWords (width : Nat) {c : Char} :
    ∀ (ws : List Str) (acc : Str), (c ∈ acc ∨ ∃ w ∈ ws, c ∈ w) →
    ∃ l ∈ wrapWords width acc ws, c ∈ l := by
  intro ws
  induction ws with
  | nil =>
    intro acc h
    rcases h with h | ⟨w, hw, _⟩
    · exact ⟨acc, by simp [wrapWords], h⟩
    · cases hw
  | cons w rest ih =>
    intro acc h
    by_cases hlong : width < w.length
    · rw [wrapWords, if_pos hlong]
      have hwne : w ≠ [] := by
        intro hnil
        subst hnil
        simp at hlong
      rcases h with hacc | ⟨w', hw', hcw'⟩
      · have hae : acc.isEmpty = false := by
          cases acc with
          | nil => cases hacc
          | cons a as => rfl
        rw [hae]
        simp only [Bool.false_eq_true, if_false]
        exact ⟨acc, List.mem_append_left _ (List.mem_append_left _ (by simp)), hacc⟩
      · rcases List.mem_cons.mp hw' with rfl | hmem
        · obtain ⟨k, hk, hck⟩ := exists_mem_chunkWord hcw' width
          have hdecomp := dropLast_append_getLastD (chunkWord_ne_nil hwne width)
          rw [← hdecomp] at hk
          rcases List.mem_append.mp hk with hkm | hkm
          · exact ⟨k, List.mem_append_left _ (List.mem_append_right _ hkm), hck⟩
          · simp only [List.mem_singleton] at hkm
            subst hkm
            obtain ⟨l, hl, hcl⟩ := ih ((chunkWord width w').getLastD []) (Or.inl hck)
            exact ⟨l, List.mem_append_right _ hl, hcl⟩
        · obtain ⟨l, hl, hcl⟩ := ih ((chunkWord width w).getLastD [])
            (Or.inr ⟨w', hmem, hcw'⟩)
          exact ⟨l, List.mem_append_right _ hl, hcl⟩
    · rw [wrapWords, if_neg hlong]
      by_cases hae : acc.isEmpty = true
      · rw [if_pos hae]
        have haccnil : acc = [] := by
          cases acc with
          | nil => rfl
          | cons a as => cases hae
        rcases h with hacc | ⟨w', hw', hcw'⟩
        · rw [haccnil] at hacc
          cases hacc
        · rcases List.mem_cons.mp hw' with rfl | hmem
          · exact ih w' (Or.inl hcw')
          · exact ih w (Or.inr ⟨w', hmem, hcw'⟩)
      · rw [if_neg hae]
        by_cases hfit : acc.length + 1 + w.length ≤ width
        · rw [if_pos hfit]
          rcases h with hacc | ⟨w', hw', hcw'⟩
          · exact ih (acc ++ ' ' :: w) (Or.inl (by simp [hacc]))
          · rcases List.mem_cons.mp hw' with rfl | hmem
            · exact ih (acc ++ ' ' :: w') (Or.inl (by simp [hcw']))
            · exact ih (acc ++ ' ' :: w) (Or.inr ⟨w', hmem, hcw'⟩)
        · rw [if_neg hfit]
          rcases h with hacc | ⟨w', hw', hcw'⟩
          · exact ⟨acc, by simp, hacc⟩
          · rcases List.mem_cons.mp hw' with rfl | hmem
            · obtain ⟨l, hl, hcl⟩ := ih w' (Or.inl hcw')
              exact ⟨l, by simp [hl], hcl⟩
            · obtain ⟨l, hl, hcl⟩ := ih w (Or.inr ⟨w', hmem, hcw'⟩)
              exact ⟨l, by simp [hl], hcl⟩

theorem exists_mem_splitWords {c : Char} {s : Str} (hc : c ∈ s) (hw : wsChar c = false) :
    ∃ w ∈ splitWords s, c ∈ w := by
  obtain ⟨part, hpart, hcp⟩ := exists_mem_splitOnP (p := wsChar) hc hw
  refine ⟨part, ?_, hcp⟩
  unfold splitWords
  refine List.mem_filter.mpr ⟨hpart, ?_⟩
  cases part with
  | nil => cases hcp
  | cons d ds => rfl

theorem exists_mem_wrapLine {c : Char} {line : Str} (hc : c ∈ line)
    (hw : wsChar c = false) (width : Nat) : ∃ l ∈ wrapLine width line, c ∈ l := by
  obtain ⟨w, hwmem, hcw⟩ := exists_mem_splitWords hc hw
  unfold wrapLine
  have hne : (splitWords line).isEmpty = false := by
    cases hsw : splitWords line with
    | nil =>
      rw [hsw] at hwmem
      cases hwmem
    | cons a as => rfl
  rw [hne]
  simp only [Bool.false_eq_true, if_false]
  exact exists_mem_wrapWords width (splitWords line) [] (Or.inr ⟨w, hwmem, hcw⟩)

theorem mem_fill {c : Char} {text : Str} (hc : c ∈ text) (hw : wsChar c = false)
    (width : Nat) : c ∈ fill text width := by
  have hnl : (decide (c = '\n') : Bool) = false := by
    simp [ne_newline_of_not_ws hw]
  obtain ⟨part, hpart, hcp⟩ :=
    exists_mem_splitOnP (p := fun x => decide (x = '\n')) hc hnl
  obtain ⟨l, hl, hcl⟩ := exists_mem_wrapLine hcp hw width
  unfold fill
  refine mem_joinSep ?_ hcl
  unfold fillLines
  exact List.mem_flatten_of_mem (List.mem_map_of_mem _ hpart) hl

theorem exists_mem_linesOf_fill {c : Char} {text : Str} (hc : c ∈ text)
    (hw : wsChar c = false) (width : Nat) :
    ∃ l ∈ linesOf (fill text width), c ∈ l :=
  exists_mem_linesOf (mem_fill hc hw width) (ne_newline_of_not_ws hw)

/-! ### The paginator never returns an empty page list -/

/-- A split state that already guarantees a non-empty final page list:
either a page has been pushed, or the buffer holds a non-whitespace
character. -/
def goodState (st : SplitState) : Prop :=
  st.pages ≠ [] ∨ ∃ c ∈ st.current, wsChar c = false

theorem goodState_addLine (ch : Nat) (l : Str) {st : SplitState} (h : goodState st) :
    goodState (addLine ch st l) := by
  unfold addLine goodState at *
  by_cases hf : ch ≤ st.linesInPage
  · rw [if_pos hf]
    left
    simp
  · rw [if_neg hf]
    rcases h with h | ⟨c, hcs, hcw⟩
    · exact Or.inl h
    · exact Or.inr ⟨c, by simp [hcs], hcw⟩

theorem goodState_addLine_of_line (ch : Nat) {l : Str} (st : SplitState)
    (h : ∃ c ∈ l, wsChar c = false) : goodState (addLine ch st l) := by
  obtain ⟨c, hcl, hcw⟩ := h
  unfold addLine goodState
  by_cases hf : ch ≤ st.linesInPage
  · rw [if_pos hf]
    left
    simp
  · rw [if_neg hf]
    right
    exact ⟨c, by simp [hcl], hcw⟩

theorem goodState_foldl (ch : Nat) (ls : List Str) {st : SplitState} (h : goodState st) :
    goodState (ls.foldl (addLine ch) st) := by
  induction ls generalizing st with
  | nil => exact h
  | cons l rest ih => exact ih (goodState_addLine ch l h)

theorem goodState_foldl_of_mem (ch : Nat) {ls : List Str}
    (h : ∃ l ∈ ls, ∃ c ∈ l, wsChar c = false) (st : SplitState) :
    goodState (ls.foldl (addLine ch) st) := by
  induction ls generalizing st with
  | nil =>
    obtain ⟨l, hl, _⟩ := h
    cases hl
  | cons l rest ih =>
    obtain ⟨l', hl', hc⟩ := h
    rcases List.mem_cons.mp hl' with rfl | hmem
    · exact goodState_foldl ch rest (goodState_addLine_of_line ch st hc)
    · exact ih ⟨l', hmem, hc⟩ _

theorem goodState_endSection (multi : Bool) {st : SplitState} (h : goodState st) :
    goodState (endSection multi st) := by
  unfold endSection
  split
  · left
    simp
  · exact h

theorem goodState_sectionStep (cw ch : Nat) (multi : Bool) (sec : Str) {st : SplitState}
    (h : goodState st) : goodState (sectionStep cw ch multi st sec) :=
  goodState_endSection multi (goodState_foldl ch _ h)

theorem goodState_sectionFold (cw ch : Nat) (multi : Bool) (secs : List Str)
    {st : SplitState} (h : goodState st) :
    goodState (secs.foldl (sectionStep cw ch multi) st) := by
  induction secs generalizing st with
  | nil => exact h
  | cons sec rest ih => exact ih (goodState_sectionStep cw ch multi sec h)

theorem goodState_sectionFold_of_mem (cw ch : Nat) (multi : Bool) {secs : List Str}
    (h : ∃ sec ∈ secs, ∃ c ∈ sec, wsChar c = false) (st : SplitState) :
    goodState (secs.foldl (sectionStep cw ch multi) st) := by
  induction secs generalizing st with
  | nil =>
    obtain ⟨sec, hsec, _⟩ := h
    cases hsec
  | cons sec rest ih =>
    obtain ⟨sec', hsec', c, hcsec, hcw⟩ := h
    rcases List.mem_cons.mp hsec' with rfl | hmem
    · refine goodState_sectionFold cw ch multi rest ?_
      refine goodState_endSection multi ?_
      refine goodState_foldl_of_mem ch ?_ st
      obtain ⟨l, hl, hcl⟩ := exists_mem_linesOf_fill hcsec hcw cw
      exact ⟨l, hl, c, hcl, hcw⟩
    · exact ih ⟨sec', hmem, c, hcsec, hcw⟩ _

theorem finalFlush_ne_nil {st : SplitState} (h : goodState st) : finalFlush st ≠ [] := by
  unfold finalFlush
  split
  · next hemp =>
    rcases h with h | ⟨c, hcs, hcw⟩
    · exact h
    · exact absurd (List.isEmpty_iff.mp hemp) (trim_ne_nil_of_mem hcs hcw)
  · simp

theorem mainPages_ne_nil {text : Str} (h : trim text ≠ []) (cw ch : Nat) :
    mainPages text cw ch ≠ [] := by
  obtain ⟨c, hcs, hcw⟩ := exists_nonws_of_trim_ne_nil h
  have hcff : (decide (c = formFeed) : Bool) = false := by
    simp [ne_formFeed_of_not_ws hcw]
  obtain ⟨sec, hsec, hcsec⟩ :=
    exists_mem_splitOnP (p := fun x => decide (x = formFeed)) hcs hcff
  exact finalFlush_ne_nil
    (goodState_sectionFold_of_mem cw ch _ ⟨sec, hsec, c, hcsec, hcw⟩ _)

/-! ### The height bound on pages -/

/-- Invariant of the page-chunking loop behind the height bound: the
buffer's newline count is covered by the tracked line count, which never
exceeds `max contentHeight 1`; a zero count means an empty buffer, a
positive one a buffer ending in `'\n'`; finished pages satisfy the
bound. -/
structure BufInv (ch : Nat) (st : SplitState) : Prop where
  count_le : st.current.count '\n' ≤ st.linesInPage
  lines_le : st.linesInPage ≤ max ch 1
  nil_of_zero : st.linesInPage = 0 → st.current = []
  ends_nl : st.linesInPage ≠ 0 → ∃ b, st.current = b ++ ['\n']
  pages_ok : ∀ p ∈ st.pages, (linesOf p).length ≤ max ch 1

theorem trim_current_bound (ch : Nat) {st : SplitState} (h : BufInv ch st) :
    (linesOf (trim st.current)).length ≤ max ch 1 := by
  by_cases hz : st.linesInPage = 0
  · rw [h.nil_of_zero hz]
    have hlen : (linesOf (trim ([] : Str))).length = 0 := rfl
    omega
  · obtain ⟨b, hb⟩ := h.ends_nl hz
    rw [hb, trim_append_ws (by decide)]
    have h1 := linesOf_length_le (trim b)
    have h2 : (trim b).count '\n' ≤ b.count '\n' := (trim_sublist b).count_le '\n'
    have h3 : b.count '\n' + 1 ≤ st.linesInPage := by
      have h4 := h.count_le
      rw [hb] at h4
      simp only [List.count_append] at h4
      have h5 : List.count '\n' ['\n'] = 1 := by decide
      omega
    have h6 := h.lines_le
    omega

theorem bufInv_addLine (ch : Nat) {l : Str} (hl : '\n' ∉ l) {st : SplitState}
    (h : BufInv ch st) : BufInv ch (addLine ch st l) := by
  have hlcount : l.count '\n' = 0 := List.count_eq_zero_of_not_mem hl
  have hsing : List.count '\n' ['\n'] = 1 := by decide
  unfold addLine
  by_cases hf : ch ≤ st.linesInPage
  · rw [if_pos hf]
    refine ⟨?_, ?_, ?_, ?_, ?_⟩
    · simp only [List.count_append, hlcount]
      omega
    · show 1 ≤ max ch 1
      omega
    · intro h0
      exact absurd h0 (Nat.succ_ne_zero 0)
    · intro _
      exact ⟨l, rfl⟩
    · intro p hp
      rcases List.mem_append.mp hp with hm | hm
      · exact h.pages_ok p hm
      · simp only [List.mem_singleton] at hm
        subst hm
        exact trim_current_bound ch h
  · rw [if_neg hf]
    have hmax : st.linesInPage + 1 ≤ max ch 1 := by
      have hle := h.lines_le
      omega
    refine ⟨?_, hmax, ?_, ?_, h.pages_ok⟩
    · simp only [List.count_append, hlcount]
      have hcle := h.count_le
      omega
    · intro h0
      exact absurd h0 (Nat.succ_ne_zero _)
    · intro _
      exact ⟨st.current ++ l, by simp⟩

theorem bufInv_foldl (ch : Nat) {ls : List Str} (hls : ∀ l ∈ ls, '\n' ∉ l)
    {st : SplitState} (h : BufInv ch st) : BufInv ch (ls.foldl (addLine ch) st) := by
  induction ls generalizing st with
  | nil => exact h
  | cons l rest ih =>
    exact ih (fun l' hl' => hls l' (List.mem_cons_of_mem _ hl'))
      (bufInv_addLine ch (hls l (List.mem_cons_self _ _)) h)

theorem bufInv_endSection (ch : Nat) (multi : Bool) {st : SplitState} (h : BufInv ch st) :
    BufInv ch (endSection multi st) := by
  unfold endSection
  split
  · refine ⟨by simp, Nat.zero_le _, fun _ => rfl, fun h0 => absurd rfl h0, ?_⟩
    intro p hp
    rcases List.mem_append.mp hp with hm | hm
    · exact h.pages_ok p hm
    · simp only [List.mem_singleton] at hm
      subst hm
      exact trim_current_bound ch h
  · exact h

theorem bufInv_sectionStep (cw ch : Nat) (multi : Bool) (sec : Str) {st : SplitState}
    (h : BufInv ch st) : BufInv ch (sectionStep cw ch multi st sec) :=
  bufInv_endSection ch multi (bufInv_foldl ch (fun _ hl => linesOf_sep_free hl) h)

theorem bufInv_sectionFold (cw ch : Nat) (multi : Bool) (secs : List Str) {st : SplitState}
    (h : BufInv ch st) : BufInv ch (secs.foldl (sectionStep cw ch multi) st) := by
  induction secs generalizing st with
  | nil => exact h
  | cons sec rest ih => exact ih (bufInv_sectionStep cw ch multi sec h)

theorem finalFlush_bound (ch : Nat) {st : SplitState} (h : BufInv ch st) :
    ∀ p ∈ finalFlush st, (linesOf p).length ≤ max ch 1 := by
  unfold finalFlush
  split
  · exact h.pages_ok
  · intro p hp
    rcases List.mem_append.mp hp with hm | hm
    · exact h.pages_ok p hm
    · simp only [List.mem_singleton] at hm
      subst hm
      exact trim_current_bound ch h

theorem bufInv_init (ch : Nat) : BufInv ch ⟨[], [], 0⟩ :=
  ⟨by simp, Nat.zero_le _, fun _ => rfl, fun h0 => absurd rfl h0, by simp⟩

theorem mainPages_height_bound (text : Str) (cw ch : Nat) :
    ∀ p ∈ mainPages text cw ch, (linesOf p).length ≤ max ch 1 :=
  finalFlush_bound ch (bufInv_sectionFold cw ch _ _ (bufInv_init ch))

theorem fallbackPages_height_bound (text : Str) (cw ch : Nat) :
    ∀ p ∈ fallbackPages text cw ch, (linesOf p).length ≤ max ch 1 :=
  finalFlush_bound ch (bufInv_foldl ch (fun _ hl => linesOf_sep_free hl) (bufInv_init ch))

theorem split_into_pages_ne_nil (text : Str) (w h : Nat) :
    split_into_pages text w h ≠ [] := by
  unfold split_into_pages
  by_cases hemp : (trim text).isEmpty = true
  · rw [if_pos hemp]
    simp
  · rw [if_neg hemp]
    have htr : trim text ≠ [] := fun hnil => hemp (List.isEmpty_iff.mpr hnil)
    have hmain := mainPages_ne_nil htr (w - 6) (h - 8)
    rw [if_neg (fun hm => hmain (List.isEmpty_iff.mp hm))]
    exact hmain

/-! ### Exact behaviour on short marker-separated sections -/

theorem splitOnP_of_no_sep {p : Char → Bool} {s : Str} (h : ∀ c ∈ s, p c = false) :
    splitOnP p s = [s] := by
  induction s with
  | nil => rfl
  | cons c cs ih =>
    have hc : p c = false := h c (List.mem_cons_self _ _)
    have ihs : splitOnP p cs = [cs] := ih (fun d hd => h d (List.mem_cons_of_mem _ hd))
    exact splitOnP_cons_false hc ihs

theorem splitOnP_append_sep {p : Char → Bool} {A : Str} {c : Char} (B : Str)
    (hA : ∀ a ∈ A, p a = false) (hc : p c = true) :
    splitOnP p (A ++ c :: B) = A :: splitOnP p B := by
  induction A with
  | nil => simpa using splitOnP_cons_true B hc
  | cons a A2 ih =>
    have ha : p a = false := hA a (List.mem_cons_self _ _)
    have ih2 := ih (fun d hd => hA d (List.mem_cons_of_mem _ hd))
    rw [List.cons_append, splitOnP_cons_false ha ih2]

theorem unlinesT_nil : unlinesT [] = [] := rfl

theorem unlinesT_cons (l : Str) (ls : List Str) :
    unlinesT (l :: ls) = l ++ '\n' :: unlinesT ls := by
  unfold unlinesT
  simp

theorem foldl_addLine_no_flush (ch : Nat) :
    ∀ (ls : List Str) (st : SplitState), st.linesInPage + ls.length ≤ ch →
    ls.foldl (addLine ch) st =
      ⟨st.pages, st.current ++ unlinesT ls, st.linesInPage + ls.length⟩ := by
  intro ls
  induction ls with
  | nil =>
    intro st h
    cases st
    simp [unlinesT_nil]
  | cons l rest ih =>
    intro st h
    have hnf : ¬ ch ≤ st.linesInPage := by
      simp only [List.length_cons] at h
      omega
    rw [List.foldl_cons]
    have hstep : addLine ch st l =
        ⟨st.pages, st.current ++ l ++ ['\n'], st.linesInPage + 1⟩ := by
      unfold addLine
      rw [if_neg hnf]
    rw [hstep, ih ⟨st.pages, st.current ++ l ++ ['\n'], st.linesInPage + 1⟩
      (by simp only [List.length_cons] at h; simp only []; omega)]
    rw [unlinesT_cons]
    simp only [List.length_cons]
    have hcur : st.current ++ l ++ ['\n'] ++ unlinesT rest
        = st.current ++ (l ++ '\n' :: unlinesT rest) := by
      simp [List.append_assoc]
    have hn : st.linesInPage + 1 + rest.length = st.linesInPage + (rest.length + 1) := by
      omega
    rw [hcur, hn]

theorem unlinesT_eq_joinSep {L : List Str} (h : L ≠ []) :
    unlinesT L = joinSep '\n' L ++ ['\n'] := by
  induction L with
  | nil => exact absurd rfl h
  | cons x rest ih =>
    cases rest with
    | nil => simp [unlinesT, joinSep]
    | cons y ys =>
      rw [unlinesT_cons, ih (by simp), joinSep_cons '\n' x (by simp)]
      simp

theorem joinSep_append_nil_part {sep : Char} {q : List Str} (h : q ≠ []) :
    joinSep sep (q ++ [[]]) = joinSep sep q ++ [sep] := by
  induction q with
  | nil => exact absurd rfl h
  | cons x rest ih =>
    cases rest with
    | nil => rfl
    | cons y ys =>
      rw [List.cons_append, joinSep_cons sep x (by simp), ih (by simp),
        joinSep_cons sep x (by simp)]
      simp

theorem trim_unlinesT_linesOf (s : Str) :
    trim (unlinesT (linesOf s)) = trim s := by
  have hjoin := joinSep_splitOnChar '\n' s
  unfold linesOf
  split
  · next hlast =>
    have hps := List.dropLast_append_getLast? (l := splitOnChar '\n' s) []
      (Option.mem_def.mpr hlast)
    by_cases hq : (splitOnChar '\n' s).dropLast = []
    · have hall : splitOnChar '\n' s = [[]] := by
        rw [← hps, hq]
        rfl
      have hs : s = [] := by
        rw [← hjoin, hall]
        rfl
      rw [hq, hs]
      rfl
    · have hs : s = joinSep '\n' ((splitOnChar '\n' s).dropLast) ++ ['\n'] := by
        conv_lhs => rw [← hjoin, ← hps]
        exact joinSep_append_nil_part hq
      rw [unlinesT_eq_joinSep hq, trim_append_ws (by decide)]
      conv_rhs => rw [hs]
      rw [trim_append_ws (by decide)]
  · next hlast =>
    have hne : splitOnChar '\n' s ≠ [] := splitOnP_ne_nil _ s
    rw [unlinesT_eq_joinSep hne, hjoin, trim_append_ws (by decide)]

theorem trim_fill_ne_nil {A : Str} (h : trim A ≠ []) (cw : Nat) :
    trim (fill A cw) ≠ [] := by
  obtain ⟨c, hcs, hcw⟩ := exists_nonws_of_trim_ne_nil h
  exact trim_ne_nil_of_mem (mem_fill hcs hcw cw) hcw

theorem sectionStep_short {S : Str} (cw ch : Nat)
    (hS : trim S ≠ []) (hlen : (linesOf (fill S cw)).length ≤ ch) (P : List Str) :
    sectionStep cw ch true ⟨P, [], 0⟩ S = ⟨P ++ [trim (fill S cw)], [], 0⟩ := by
  unfold sectionStep
  rw [foldl_addLine_no_flush ch _ _ (by simpa using hlen)]
  unfold endSection
  simp only [List.nil_append, trim_unlinesT_linesOf]
  rw [if_pos (by simp [List.isEmpty_iff, trim_fill_ne_nil hS cw])]

theorem mainPages_two_sections {A B : Str} (cw ch : Nat)
    (hA : trim A ≠ []) (hB : trim B ≠ [])
    (hAff : formFeed ∉ A) (hBff : formFeed ∉ B)
    (hAlen : (linesOf (fill A cw)).length ≤ ch)
    (hBlen : (linesOf (fill B cw)).length ≤ ch) :
    mainPages (A ++ formFeed :: B) cw ch = [trim (fill A cw), trim (fill B cw)] := by
  have hsecs : splitOnChar formFeed (A ++ formFeed :: B) = [A, B] := by
    unfold splitOnChar
    rw [splitOnP_append_sep B
      (fun a ha => by
        simp only [decide_eq_false_iff_not]
        intro hEq
        exact hAff (hEq ▸ ha)) (by simp)]
    rw [splitOnP_of_no_sep (fun b hb => by
      simp only [decide_eq_false_iff_not]
      intro hEq
      exact hBff (hEq ▸ hb))]
  unfold mainPages
  rw [hsecs]
  have hmulti : decide (1 < ([A, B] : List Str).length) = true := by simp
  rw [hmulti]
  rw [List.foldl_cons, sectionStep_short cw ch hA hAlen [],
    List.foldl_cons, sectionStep_short cw ch hB hBlen _, List.foldl_nil]
  unfold finalFlush
  rw [if_pos (by decide : ((trim ([] : Str)).isEmpty : Prop))]
  simp


/-! ### Navigation -/

theorem next_page_total (v : PdfViewer) : (next_page v).total_pages = v.total_pages := by
  unfold next_page
  split <;> rfl

theorem prev_page_total (v : PdfViewer) : (prev_page v).total_pages = v.total_pages := by
  unfold prev_page
  split <;> rfl

theorem next_page_current (v : PdfViewer) :
    (next_page v).current_page =
      if v.current_page + 1 < v.total_pages then v.current_page + 1
      else v.current_page := by
  unfold next_page
  by_cases h : v.current_page + 1 < v.total_pages
  · rw [if_pos h, if_pos h]
  · rw [if_neg h, if_neg h]

theorem prev_page_current (v : PdfViewer) :
    (prev_page v).current_page =
      if 0 < v.current_page then v.current_page - 1 else v.current_page := by
  unfold prev_page
  by_cases h : 0 < v.current_page
  · rw [if_pos h, if_pos h]
  · rw [if_neg h, if_neg h]

theorem applyKey_total (v : PdfViewer) (k : NavKey) :
    (applyKey v k).total_pages = v.total_pages := by
  cases k with
  | left => exact prev_page_total v
  | right => exact next_page_total v
  | home => rfl
  | endKey => rfl
  | quit => rfl
  | refresh => rfl
  | help => rfl
  | other => rfl

theorem applyKey_lt (v : PdfViewer) (k : NavKey) (htot : 1 ≤ v.total_pages)
    (hcur : v.current_page < v.total_pages) :
    (applyKey v k).current_page < (applyKey v k).total_pages := by
  rw [applyKey_total]
  cases k with
  | left =>
    show (prev_page v).current_page < v.total_pages
    rw [prev_page_current]
    split <;> omega
  | right =>
    show (next_page v).current_page < v.total_pages
    rw [next_page_current]
    split <;> omega
  | home =>
    show (0 : Nat) < v.total_pages
    omega
  | endKey =>
    show v.total_pages - 1 < v.total_pages
    omega
  | quit => exact hcur
  | refresh => exact hcur
  | help => exact hcur
  | other => exact hcur

theorem processKeys_bounds : ∀ (keys : List NavKey) (v : PdfViewer),
    1 ≤ v.total_pages → v.current_page < v.total_pages →
    (processKeys v keys).current_page < (processKeys v keys).total_pages ∧
      (processKeys v keys).total_pages = v.total_pages
  | [], _, _, hcur => ⟨hcur, rfl⟩
  | NavKey.quit :: _, _, _, hcur => ⟨hcur, rfl⟩
  | NavKey.help :: [], _, _, hcur => ⟨hcur, rfl⟩
  | NavKey.help :: _ :: rest2, v, htot, hcur =>
    processKeys_bounds rest2 v htot hcur
  | NavKey.left :: rest, v, htot, hcur => by
    have h2 := processKeys_bounds rest (applyKey v NavKey.left)
      (by rw [applyKey_total]; exact htot) (applyKey_lt v NavKey.left htot hcur)
    exact ⟨h2.1, h2.2.trans (applyKey_total v NavKey.left)⟩
  | NavKey.right :: rest, v, htot, hcur => by
    have h2 := processKeys_bounds rest (applyKey v NavKey.right)
      (by rw [applyKey_total]; exact htot) (applyKey_lt v NavKey.right htot hcur)
    exact ⟨h2.1, h2.2.trans (applyKey_total v NavKey.right)⟩
  | NavKey.home :: rest, v, htot, hcur => by
    have h2 := processKeys_bounds rest (applyKey v NavKey.home)
      (by rw [applyKey_total]; exact htot) (applyKey_lt v NavKey.home htot hcur)
    exact ⟨h2.1, h2.2.trans (applyKey_total v NavKey.home)⟩
  | NavKey.endKey :: rest, v, htot, hcur => by
    have h2 := processKeys_bounds rest (applyKey v NavKey.endKey)
      (by rw [applyKey_total]; exact htot) (applyKey_lt v NavKey.endKey htot hcur)
    exact ⟨h2.1, h2.2.trans (applyKey_total v NavKey.endKey)⟩
  | NavKey.refresh :: rest, v, htot, hcur => by
    have h2 := processKeys_bounds rest (applyKey v NavKey.refresh)
      (by rw [applyKey_total]; exact htot) (applyKey_lt v NavKey.refresh htot hcur)
    exact ⟨h2.1, h2.2.trans (applyKey_total v NavKey.refresh)⟩
  | NavKey.other :: rest, v, htot, hcur => by
    have h2 := processKeys_bounds rest (applyKey v NavKey.other)
      (by rw [applyKey_total]; exact htot) (applyKey_lt v NavKey.other htot hcur)
    exact ⟨h2.1, h2.2.trans (applyKey_total v NavKey.other)⟩

/-! ### Rendering -/

theorem shownRows_eq_take (cw chh : Nat) :
    ∀ (ls : List Str) (d : Nat),
    shownRows cw chh ls d = (ls.take (chh - d)).map (contentRow cw) := by
  intro ls
  induction ls with
  | nil =>
    intro d
    simp [shownRows]
  | cons l rest ih =>
    intro d
    unfold shownRows
    by_cases hd : chh ≤ d
    · rw [if_pos hd]
      have hz : chh - d = 0 := by omega
      rw [hz]
      simp
    · rw [if_neg hd]
      have hs : chh - d = (chh - (d + 1)) + 1 := by omega
      rw [hs, List.take_succ_cons, List.map_cons, ih (d + 1)]

/-! ### The claims -/

/-- C1: for every input text string and every viewport (width, height),
`split_into_pages` returns a page sequence of length at least 1 —
including for the empty string, whitespace-only text, and text
consisting only of page-break markers. -/
theorem c1_paginate_nonempty (text : Str) (width height : Nat) :
    1 ≤ (split_into_pages text width height).length := by
  have h := split_into_pages_ne_nil text width height
  cases hs : split_into_pages text width height with
  | nil => exact absurd hs h
  | cons p ps => simp

/-- C2 counterexample: at viewport height 8 (so contentHeight = 0) the
one-character text "a" still produces a page holding one line, so the
claimed bound "at most contentHeight lines" fails. -/
theorem c2_height_bound_counterexample :
    ¬ (∀ p ∈ split_into_pages ['a'] 80 8, (linesOf p).length ≤ 8 - 8) := by
  decide

/-- C2 (amended): for every viewport and every input text that is
non-blank after trimming, every page returned by `split_into_pages`
holds at most `max contentHeight 1` lines, `contentHeight = height − 8`
floored at 0.  (When `contentHeight = 0` a page may still hold one line,
and the blank-input placeholder page is a fixed 8-line message exempt
from any viewport bound — the two corrections the counterexample
forces.) -/
theorem c2_height_bound_amended {text : Str} (htext : trim text ≠ [])
    (width height : Nat) :
    ∀ p ∈ split_into_pages text width height,
      (linesOf p).length ≤ max (height - 8) 1 := by
  unfold split_into_pages
  rw [if_neg (fun he => htext (List.isEmpty_iff.mp he))]
  split
  · exact fallbackPages_height_bound text _ _
  · exact mainPages_height_bound text _ _

/-- Witness for C2 (amended): text "a" at viewport 80×24. -/
theorem c2_height_bound_witness :
    trim ['a'] ≠ [] ∧
      ∀ p ∈ split_into_pages ['a'] 80 24, (linesOf p).length ≤ max (24 - 8) 1 :=
  ⟨by decide, c2_height_bound_amended (by decide) 80 24⟩

/-- C3 counterexample: the claim quantifies over all texts A and B, but
with A = "x\x0Cy" (non-blank, wrapping to fewer than contentHeight
lines) and B = "z" the concatenation A ++ '\x0C' ++ B holds three
page-break-separated sections and paginates to 3 pages, not 2. -/
theorem c3_section_break_counterexample :
    (trim ('x' :: formFeed :: ['y']) ≠ [] ∧ trim ['z'] ≠ [] ∧
      (linesOf (fill ('x' :: formFeed :: ['y']) (80 - 6))).length < 24 - 8 ∧
      (linesOf (fill ['z'] (80 - 6))).length < 24 - 8) ∧
    (split_into_pages (('x' :: formFeed :: ['y']) ++ formFeed :: ['z']) 80 24).length
      ≠ 2 := by
  decide

/-- C3 (amended): for texts A and B that are non-blank after trimming,
contain no page-break marker themselves, and each wrap to fewer than
contentHeight lines, `split_into_pages` on A ++ '\x0C' ++ B returns
exactly 2 pages — the first A's wrapped (trimmed) content, the second
B's — never merged. -/
theorem c3_section_break_amended {A B : Str} (width height : Nat)
    (hA : trim A ≠ []) (hB : trim B ≠ [])
    (hAff : formFeed ∉ A) (hBff : formFeed ∉ B)
    (hAlen : (linesOf (fill A (width - 6))).length < height - 8)
    (hBlen : (linesOf (fill B (width - 6))).length < height - 8) :
    split_into_pages (A ++ formFeed :: B) width height =
      [trim (fill A (width - 6)), trim (fill B (width - 6))] := by
  have htext : trim (A ++ formFeed :: B) ≠ [] := by
    obtain ⟨c, hcs, hcw⟩ := exists_nonws_of_trim_ne_nil hA
    exact trim_ne_nil_of_mem (List.mem_append_left _ hcs) hcw
  unfold split_into_pages
  rw [if_neg (fun he => htext (List.isEmpty_iff.mp he))]
  rw [mainPages_two_sections (width - 6) (height - 8) hA hB hAff hBff
    (Nat.le_of_lt hAlen) (Nat.le_of_lt hBlen)]
  rw [if_neg (by simp)]

/-- Witness for C3 (amended): A = "hello", B = "world" at viewport
80×24 give exactly the two pages "hello" and "world". -/
theorem c3_section_break_witness :
    (trim ("hello".data) ≠ [] ∧ trim ("world".data) ≠ [] ∧
      formFeed ∉ ("hello".data) ∧ formFeed ∉ ("world".data) ∧
      (linesOf (fill ("hello".data) (80 - 6))).length < 24 - 8 ∧
      (linesOf (fill ("world".data) (80 - 6))).length < 24 - 8) ∧
    split_into_pages (("hello".data) ++ formFeed :: ("world".data)) 80 24 =
      [trim (fill ("hello".data) (80 - 6)), trim (fill ("world".data) (80 - 6))] :=
  ⟨⟨by decide, by decide, by decide, by decide, by decide, by decide⟩,
    c3_section_break_amended 80 24 (by decide) (by decide) (by decide) (by decide)
      (by decide) (by decide)⟩

/-- C4: for a viewer state with total ≥ 1 and 0 ≤ index < total,
`next_page` yields min(index + 1, total − 1) and `prev_page` yields
max(index − 1, 0); at index 0 `prev_page` is a no-op and at index
total − 1 `next_page` is a no-op. -/
theorem c4_saturating_navigation (v : PdfViewer)
    (htot : 1 ≤ v.total_pages) (hcur : v.current_page < v.total_pages) :
    ((next_page v).current_page : Int) =
        min ((v.current_page : Int) + 1) ((v.total_pages : Int) - 1) ∧
      ((prev_page v).current_page : Int) = max ((v.current_page : Int) - 1) 0 ∧
      (v.current_page = 0 → prev_page v = v) ∧
      (v.current_page = v.total_pages - 1 → next_page v = v) := by
  refine ⟨?_, ?_, ?_, ?_⟩
  · rw [next_page_current]
    split <;> omega
  · rw [prev_page_current]
    split <;> omega
  · intro h0
    unfold prev_page
    rw [if_neg (by omega)]
  · intro h0
    unfold next_page
    rw [if_neg (by omega)]

/-- Concrete single-page viewer used by witnesses. -/
def vExample : PdfViewer :=
  { full_text := ['a'], pages := [['a']], current_page := 0, total_pages := 1,
    terminal_width := 80, terminal_height := 24, pdf_name := ['d'] }

/-- Witness for C4 at a one-page viewer. -/
theorem c4_saturating_navigation_witness :
    1 ≤ vExample.total_pages ∧ vExample.current_page < vExample.total_pages ∧
      (((next_page vExample).current_page : Int) =
          min ((vExample.current_page : Int) + 1) ((vExample.total_pages : Int) - 1) ∧
        ((prev_page vExample).current_page : Int) =
          max ((vExample.current_page : Int) - 1) 0 ∧
        (vExample.current_page = 0 → prev_page vExample = vExample) ∧
        (vExample.current_page = vExample.total_pages - 1 →
          next_page vExample = vExample)) :=
  ⟨by decide, by decide, c4_saturating_navigation vExample (by decide) (by decide)⟩

/-- C5: starting from the initial state (index 0, total ≥ 1), every
sequence of key transitions keeps 0 ≤ index < total, where total equals
the length of the page sequence. -/
theorem c5_index_bounds_invariant (text name : Str) (width height : Nat)
    (keys : List NavKey) :
    (processKeys (mkViewer text name width height) keys).current_page
        < (mkViewer text name width height).total_pages ∧
      (processKeys (mkViewer text name width height) keys).total_pages
        = (mkViewer text name width height).total_pages ∧
      (mkViewer text name width height).total_pages
        = (split_into_pages text width height).length := by
  have hlen : (split_into_pages text width height).length ≠ 0 := by
    intro h0
    exact split_into_pages_ne_nil text width height (List.length_eq_zero.mp h0)
  have htot : (mkViewer text name width height).total_pages
      = (split_into_pages text width height).length := by
    unfold mkViewer
    rw [if_neg hlen]
  have htot1 : 1 ≤ (mkViewer text name width height).total_pages := by omega
  have hcur0 : (mkViewer text name width height).current_page = 0 := rfl
  obtain ⟨h1, h2⟩ := processKeys_bounds keys (mkViewer text name width height)
    htot1 (by omega)
  exact ⟨h2 ▸ h1, h2, htot⟩

/-- C6: a text that is blank after trimming yields exactly one page —
the fixed multi-line explanatory placeholder — identical for every
viewport. -/
theorem c6_placeholder_on_blank {text : Str} (hblank : trim text = [])
    (width height width2 height2 : Nat) :
    split_into_pages text width height = [placeholderText] ∧
      split_into_pages text width height = split_into_pages text width2 height2 ∧
      1 < (linesOf placeholderText).length := by
  have hone : ∀ w h : Nat, split_into_pages text w h = [placeholderText] := by
    intro w h
    unfold split_into_pages
    rw [if_pos (by rw [hblank]; rfl)]
  refine ⟨hone width height, ?_, by decide⟩
  rw [hone, hone]

/-- Witness for C6: the empty text at viewports 80×24 and 10×10. -/
theorem c6_placeholder_witness :
    trim ([] : Str) = [] ∧
      (split_into_pages [] 80 24 = [placeholderText] ∧
        split_into_pages [] 80 24 = split_into_pages [] 10 10 ∧
        1 < (linesOf placeholderText).length) :=
  ⟨by decide, c6_placeholder_on_blank (by decide) 80 24 10 10⟩

/-- C7: `draw_page` emits exactly contentHeight content rows between the
borders for every state: page lines beyond contentHeight are truncated,
missing lines are padded with blank rows, so the frame height is
constant. -/
theorem c7_fixed_content_rows (v : PdfViewer) :
    (contentRows v).length = v.terminal_height - 8 ∧
      contentRows v =
        ((linesOf (pageContentOf v)).take (v.terminal_height - 8)).map
            (contentRow (v.terminal_width - 6)) ++
          List.replicate ((v.terminal_height - 8) -
              min (v.terminal_height - 8) (linesOf (pageContentOf v)).length)
            (blankRow (v.terminal_width - 6)) := by
  have hsr := shownRows_eq_take (v.terminal_width - 6) (v.terminal_height - 8)
    (linesOf (pageContentOf v)) 0
  unfold contentRows
  rw [hsr]
  constructor
  · rw [List.length_append, List.length_replicate, List.length_map, List.length_take]
    omega
  · rw [List.length_map, List.length_take]
    simp only [Nat.sub_zero]

/-- C8: when total > 1, the progress bar for page index i is exactly
⌊(i+1)·20/total⌋ filled cells followed by the complement to 20 cells, so
the bar is always 20 cells wide; the percentage value is
(i+1)/total·100 (modelled over ℚ; its one-decimal display formatting is
outside the model). -/
theorem c8_progress_bar (current total : Nat) (h1 : 1 < total)
    (h2 : current < total) :
    (progressBar current total).length = 20 ∧
      progressBar current total =
        List.replicate ((current + 1) * 20 / total) '█' ++
          List.replicate (20 - (current + 1) * 20 / total) '░' ∧
      percentQ current total = ((current : ℚ) + 1) / (total : ℚ) * 100 := by
  have hfill : progressFilled current total ≤ 20 := by
    unfold progressFilled
    have hle : (current + 1) * 20 ≤ total * 20 := by
      apply Nat.mul_le_mul_right
      omega
    have hdiv := Nat.div_le_div_right (c := total) hle
    rwa [Nat.mul_div_cancel_left 20 (by omega)] at hdiv
  refine ⟨?_, rfl, rfl⟩
  unfold progressBar
  rw [List.length_append, List.length_replicate, List.length_replicate]
  omega

/-- Witness for C8 at page index 0 of 2. -/
theorem c8_progress_bar_witness :
    1 < 2 ∧ 0 < 2 ∧
      ((progressBar 0 2).length = 20 ∧
        progressBar 0 2 =
          List.replicate ((0 + 1) * 20 / 2) '█' ++
            List.replicate (20 - (0 + 1) * 20 / 2) '░' ∧
        percentQ 0 2 = ((0 : ℚ) + 1) / (2 : ℚ) * 100) :=
  ⟨by decide, by decide, c8_progress_bar 0 2 (by decide) (by decide)⟩

/-- C9: the help transition modifies nothing: '?' followed by any
dismissing key (even a navigation key) leaves the viewer state — hence
the rendered page — exactly as before, in any surrounding key
sequence. -/
theorem c9_help_preserves_state (v : PdfViewer) (k : NavKey) (keys : List NavKey) :
    processKeys v (NavKey.help :: k :: keys) = processKeys v keys ∧
      processKeys v [NavKey.help, k] = v ∧
      pageContentOf (processKeys v [NavKey.help, k]) = pageContentOf v ∧
      contentRows (processKeys v [NavKey.help, k]) = contentRows v :=
  ⟨rfl, rfl, rfl, rfl⟩

/-- C10: the page lookup of `draw_page` is total — whenever the index is
not within the page list (in particular for an empty page list, where
`total_pages` is forced to 1), it renders the empty string, giving a
fully blank content box instead of an out-of-bounds access. -/
theorem c10_draw_lookup_total (v : PdfViewer)
    (h : v.pages.length ≤ v.current_page) :
    pageContentOf v = [] ∧
      contentRows v = List.replicate (v.terminal_height - 8)
        (blankRow (v.terminal_width - 6)) := by
  have hpc : pageContentOf v = [] := by
    unfold pageContentOf
    rw [dif_neg (by omega)]
  refine ⟨hpc, ?_⟩
  unfold contentRows
  rw [hpc, linesOf_nil]
  simp [shownRows]

/-- Concrete viewer with an empty page list (the degenerate state C10
describes, with total_pages forced to 1). -/
def vEmptyPages : PdfViewer :=
  { full_text := [], pages := [], current_page := 0, total_pages := 1,
    terminal_width := 80, terminal_height := 24, pdf_name := [] }

/-- Witness for C10 at the empty-page-list viewer. -/
theorem c10_draw_lookup_total_witness :
    vEmptyPages.pages.length ≤ vEmptyPages.current_page ∧
      (pageContentOf vEmptyPages = [] ∧
        contentRows vEmptyPages = List.replicate (vEmptyPages.terminal_height - 8)
          (blankRow (vEmptyPages.terminal_width - 6))) :=
  ⟨by decide, c10_draw_lookup_total vEmptyPages (by decide)⟩

end PdfTui
